import Mathlib

/- Verification development for the rslash recommendation core
   (src/ml/embeddings.py and src/ml/ranking.py).

   Numeric values are idealized as elements of a linear ordered field K.
   The floating-point square root used by np.linalg.norm is passed around as
   an explicit function argument sqrt; theorems constrain it by the
   hypothesis that it is an exact nonnegative square root, which Real.sqrt
   satisfies. Database queries, the FAISS store and the random draws are
   passed in as explicit inputs, so every function is a pure function of
   the external state visible at call time. -/

section Model

variable {K : Type} [LinearOrderedField K]

/-- Squared L2 norm of a vector: the sum of the squares of the entries. -/
def normSq (v : List K) : K := (v.map fun x => x * x).sum

/-- Scalar multiple of a vector (numpy scalar times array). -/
def smulL (c : K) (v : List K) : List K := v.map fun x => c * x

/-- Dot product (np.dot), truncating to the shorter vector. -/
def dotL (a b : List K) : K := (List.zipWith (fun x y => x * y) a b).sum

/-- Normalization step shared by both preference-update paths in
ml/embeddings.py: norm = np.linalg.norm(u); if norm > 0: u = u / norm.
The square root inside np.linalg.norm is the argument sqrt. -/
def normalizeWith (sqrt : K → K) (v : List K) : List K :=
  if 0 < sqrt (normSq v) then v.map fun x => x / sqrt (normSq v) else v

/-- Specification of an exact nonnegative square root, the idealization of
the floating-point square root inside np.linalg.norm; Real.sqrt satisfies
it. -/
def IsSqrt (sqrt : K → K) : Prop :=
  ∀ x : K, 0 ≤ x → sqrt x * sqrt x = x ∧ 0 ≤ sqrt x

/-- Interaction types understood by the update code. -/
inductive InteractionType
  | like
  | dislike
  | skip
  | click
  deriving DecidableEq

/-- Model of the Post record (backend/app/models.py), restricted to the
fields the embedding and ranking code reads. post_age_hours is an Option
because the column is nullable; embedding uses the empty list for a missing
(falsy) value. Presentation-only fields (title, url, content, ...) are
omitted: they never influence which posts are chosen. -/
structure Post (K : Type) where
  post_id : String
  subreddit : String
  score : K
  num_comments : K
  upvote_ratio : K
  post_age_hours : Option K
  created_utc : K
  is_video : Bool
  is_self : Bool
  nsfw : Bool
  embedding : List K
  deriving DecidableEq

/-- Model of the User record, restricted to the fields the pipeline reads.
user_embedding uses the empty list for a missing (falsy) value;
preferred_subreddits is the items list of the stored JSON mapping. -/
structure User (K : Type) where
  user_id : String
  user_embedding : List K
  preferred_subreddits : List (String × K)
  exploration_rate : K
  deriving DecidableEq

/-- Model of the Interaction record, restricted to the fields the candidate
generator reads to build the seen-set. -/
structure Interaction where
  user_id : String
  post_id : String
  deriving DecidableEq

/-- Model of EmbeddingManager.update_user_embedding_online (ml/embeddings.py).
userEmb is the stored user embedding, with the empty list standing for a
missing (falsy) value, in which case the code starts from np.zeros; postEmb
is the post embedding (the code returns early when the user, the post or the
post embedding is missing, so this model is the body past that guard); lr is
the learning_rate argument, 0.1 by default. -/
def update_user_embedding_online (sqrt : K → K) (t : InteractionType)
    (userEmb postEmb : List K) (lr : K) : List K :=
  let u := if userEmb.isEmpty then List.replicate postEmb.length 0 else userEmb
  let u2 :=
    match t with
    | InteractionType.like =>
        List.zipWith (fun x y => x + y) (smulL (1 - lr) u) (smulL lr postEmb)
    | InteractionType.dislike =>
        List.zipWith (fun x y => x - y) u (smulL (lr * (1 / 2)) postEmb)
    | _ => u
  normalizeWith sqrt u2

/-- Pointwise sum of a list of vectors (np.sum over axis 0). -/
def sumVecs : List (List K) → List K
  | [] => []
  | v :: vs => vs.foldl (fun a b => List.zipWith (fun x y => x + y) a b) v

/-- Pointwise mean of a list of vectors (np.mean over axis 0). -/
def meanVec (l : List (List K)) : List K :=
  smulL (1 / (l.length : K)) (sumVecs l)

/-- Model of EmbeddingManager.generate_user_embedding (ml/embeddings.py).
likedInteractions holds (post_id, time_spent) for the user's like rows,
dislikedIds the post ids of the dislike rows, lookup the database fetch of a
post by id, and samplePosts the bounded catalog sample (first 100 posts)
used by the no-likes fallback. dim is the embedding dimension. -/
def generate_user_embedding (sqrt : K → K)
    (likedInteractions : List (String × K)) (dislikedIds : List String)
    (lookup : String → Option (Post K)) (samplePosts : List (Post K))
    (dim : Nat) : List K :=
  if likedInteractions.isEmpty then
    let embs := (samplePosts.map fun p => p.embedding).filter fun e => !e.isEmpty
    if embs.isEmpty then List.replicate dim 0 else meanVec embs
  else
    let likedEmbs := likedInteractions.filterMap fun it =>
      match lookup it.1 with
      | some p =>
          if p.embedding.isEmpty then none
          else some (smulL (min (it.2 / 30) 2) p.embedding)
      | none => none
    let dislikedEmbs := dislikedIds.filterMap fun pid =>
      match lookup pid with
      | some p => if p.embedding.isEmpty then none else some p.embedding
      | none => none
    let u0 : List K := List.replicate dim 0
    let u1 :=
      if likedEmbs.isEmpty then u0
      else List.zipWith (fun x y => x + y) u0 (meanVec likedEmbs)
    let u2 :=
      if dislikedEmbs.isEmpty then u1
      else List.zipWith (fun x y => x - y) u1 (smulL (3 / 10) (meanVec dislikedEmbs))
    normalizeWith sqrt u2

/-- State of the FAISS-backed vector store: the indexed vectors in insertion
order and the index-to-post-id map. -/
structure VecIndex (K : Type) where
  vectors : List (List K)
  idMap : List (Nat × String)
  deriving DecidableEq

/-- Model of the search over a built index: inner product of the normalized
query with every stored vector, highest first (IndexFlatIP), truncated to k,
then mapped through post_id_map, dropping indices the map does not know. -/
def searchIndex (sqrt : K → K) (idx : VecIndex K) (q : List K) (k : Nat) :
    List (String × K) :=
  let qn := normalizeWith sqrt q
  let scored := idx.vectors.enum.map fun iv => (iv.1, dotL qn iv.2)
  let top := (List.insertionSort (fun a b : Nat × K => b.2 ≤ a.2) scored).take k
  top.filterMap fun pr =>
    match idx.idMap.find? fun e => e.1 == pr.1 with
    | some e => some (e.2, pr.2)
    | none => none

/-- Model of generate_post_embeddings followed by _build_faiss_index
(ml/embeddings.py): the external sentence-transformer encoder is the
argument embed; the produced vectors are L2-normalized and added to a fresh
index in catalog order. -/
def buildIndexFromPosts (sqrt : K → K) (embed : Post K → List K)
    (dbPosts : List (Post K)) : VecIndex K :=
  { vectors := dbPosts.map fun p => normalizeWith sqrt (embed p)
    idMap := (dbPosts.map fun p => p.post_id).enum }

/-- Model of EmbeddingManager.find_similar_posts (ml/embeddings.py).
postIndex is the in-memory index (None before any build); loadResult the
outcome of load_index on the saved file (None when no file exists); dbPosts
the post table, read when the code falls through to an inline
generate_post_embeddings call. The Bool of the result records whether that
blocking inline index construction was triggered by this query. -/
def find_similar_posts (sqrt : K → K) (embed : Post K → List K)
    (postIndex : Option (VecIndex K)) (loadResult : Option (VecIndex K))
    (dbPosts : List (Post K)) (q : List K) (k : Nat) :
    List (String × K) × Bool :=
  match postIndex with
  | some idx => (searchIndex sqrt idx q k, false)
  | none =>
    match loadResult with
    | some idx => (searchIndex sqrt idx q k, false)
    | none =>
      let idx := buildIndexFromPosts sqrt embed dbPosts
      (searchIndex sqrt idx q k, true)

/-- Seen-set of a user: the post ids of all of the user's interaction rows. -/
def seenPostIds (interactions : List Interaction) (uid : String) : List String :=
  (interactions.filter fun i => i.user_id == uid).map fun i => i.post_id

/-- Descending stable sort by the raw Reddit score, modelling ORDER BY
score DESC with ties kept in catalog iteration order. -/
def sortByScoreDesc (l : List (Post K)) : List (Post K) :=
  List.insertionSort (fun a b => b.score ≤ a.score) l

/-- Score velocity used by the trending strategy: score / (age + 1), reading
a missing age as 0. -/
def velocity (p : Post K) : K := p.score / (p.post_age_hours.getD 0 + 1)

/-- Descending sort by score velocity, modelling the trending ORDER BY. -/
def sortByVelocityDesc (l : List (Post K)) : List (Post K) :=
  List.insertionSort (fun a b => velocity b ≤ velocity a) l

/-- Worker of the order-preserving deduplication at the end of
get_candidates, carrying the set of already seen ids. -/
def dedupGo : List String → List (Post K) → List (Post K)
  | _, [] => []
  | seen, p :: rest =>
    if p.post_id ∈ seen then dedupGo seen rest
    else p :: dedupGo (p.post_id :: seen) rest

/-- Order-preserving deduplication by post_id, first occurrence wins. -/
def dedupById (l : List (Post K)) : List (Post K) := dedupGo [] l

/-- Strategy 1 of get_candidates: for each vector-store hit not in the
seen-set, fetch the post by id from the catalog; skipped entirely when the
user has no stored embedding (falsy check on user.user_embedding). -/
def similarityCandidates (catalog : List (Post K)) (seen : List String)
    (userEmb : List K) (simResults : List (String × K)) : List (Post K) :=
  if userEmb.isEmpty then []
  else simResults.filterMap fun pr =>
    if pr.1 ∈ seen then none else catalog.find? fun p => p.post_id == pr.1

/-- Strategy 2 of get_candidates: unseen posts younger than 48 hours, by
descending score velocity, truncated to k. -/
def trendingCandidates (catalog : List (Post K)) (seen : List String)
    (now : K) (k : Nat) : List (Post K) :=
  (sortByVelocityDesc (catalog.filter fun p =>
    decide (now - 48 * 3600 < p.created_utc) && decide (p.post_id ∉ seen))).take k

/-- Strategy 3 of get_candidates: for the user's top 3 subreddits by weight,
up to 10 unseen posts each by descending raw score, concatenated. -/
def subredditCandidates (catalog : List (Post K)) (seen : List String)
    (prefs : List (String × K)) : List (Post K) :=
  (((List.insertionSort (fun a b : String × K => b.2 ≤ a.2) prefs).take 3).map
    fun sw => (sortByScoreDesc (catalog.filter fun p =>
      p.subreddit == sw.1 && decide (p.post_id ∉ seen))).take 10).flatten

/-- Strategy 4 of get_candidates: unseen posts in random order, truncated. -/
def explorationCandidates (explorationPool : List (Post K))
    (seen : List String) (k : Nat) : List (Post K) :=
  (explorationPool.filter fun p => decide (p.post_id ∉ seen)).take k

/-- Model of RankingPipeline.get_candidates (ml/ranking.py). user? is the
database lookup of the user row (None for an unknown user); catalog the post
table; simResults the response of the vector store to the similarity query;
explorationPool the catalog in the order produced by ORDER BY random(); now
the current Unix timestamp. The fractional strategy shares int(num * 0.3)
and int(num * 0.1) are idealized as exact rational floors. -/
def get_candidates (user? : Option (User K)) (catalog : List (Post K))
    (interactions : List Interaction) (simResults : List (String × K))
    (explorationPool : List (Post K)) (now : K) (num_candidates : Nat) :
    List (Post K) :=
  match user? with
  | none => (sortByScoreDesc catalog).take num_candidates
  | some user =>
    let seen := seenPostIds interactions user.user_id
    (dedupById
      (similarityCandidates catalog seen user.user_embedding simResults ++
       trendingCandidates catalog seen now (num_candidates * 3 / 10) ++
       subredditCandidates catalog seen user.preferred_subreddits ++
       explorationCandidates explorationPool seen (num_candidates / 10))).take
      num_candidates

/-- Hours-old value used by the freshness feature: a missing or zero (falsy)
post_age_hours is read as 24. -/
def hoursOld (p : Post K) : K :=
  match p.post_age_hours with
  | none => 24
  | some h => if h = 0 then 24 else h

/-- Freshness feature of the scorer: max(0, 1 - hours_old / 168). -/
def freshnessScore (p : Post K) : K := max 0 (1 - hoursOld p / 168)

/-- Engagement feature of the scorer, before the cap at 1. -/
def engagementScore (p : Post K) : K :=
  p.score / 1000 * (3 / 10) + p.num_comments / 100 * (2 / 10) +
    p.upvote_ratio * (1 / 10)

/-- Dictionary lookup preferred_subreddits.get(subreddit, 0). -/
def affinityWeight (prefs : List (String × K)) (s : String) : K :=
  match prefs.find? fun e => e.1 == s with
  | some e => e.2
  | none => 0

/-- Model of the per-candidate score computed by
RankingPipeline.score_candidates (ml/ranking.py). -/
def scoreOf (user? : Option (User K)) (p : Post K) : K :=
  (match user? with
   | some u =>
     if u.user_embedding.isEmpty = false ∧ p.embedding.isEmpty = false then
       dotL u.user_embedding p.embedding * (4 / 10)
     else 0
   | none => 0) +
  min (engagementScore p) 1 * (3 / 10) +
  freshnessScore p * (2 / 10) +
  (match user? with
   | some u => affinityWeight u.preferred_subreddits p.subreddit * (1 / 10)
   | none => 0)

/-- Model of RankingPipeline.score_candidates: score every candidate, then
stable-sort descending by score (Python list.sort with reverse=True keeps
equal-score candidates in their pre-sort relative order). -/
def score_candidates (user? : Option (User K)) (candidates : List (Post K)) :
    List (Post K × K) :=
  List.insertionSort (fun a b => b.2 ≤ a.2)
    (candidates.map fun p => (p, scoreOf user? p))

/-- Content-type buckets of the diversifier. -/
inductive CType
  | text
  | link
  | video
  deriving DecidableEq

/-- Bucket of a post: video if is_video, else text if is_self, else link. -/
def contentType (p : Post K) : CType :=
  if p.is_video then CType.video
  else if p.is_self then CType.text
  else CType.link

/-- Greedy selection loop of RankingPipeline.apply_business_rules: skip a
post once its subreddit already has 2 accepted posts, skip once its
content-type bucket already has num_items / 2 (integer division) accepted
posts, skip NSFW posts, otherwise accept; stop as soon as num_items posts
are accepted. -/
def greedyGo (n : Nat) (subCnt : String → Nat) (tCnt : CType → Nat)
    (acc : List (Post K)) : List (Post K) → List (Post K)
  | [] => acc
  | p :: rest =>
    if 2 ≤ subCnt p.subreddit then greedyGo n subCnt tCnt acc rest
    else if n / 2 ≤ tCnt (contentType p) then greedyGo n subCnt tCnt acc rest
    else if p.nsfw then greedyGo n subCnt tCnt acc rest
    else
      let acc2 := acc ++ [p]
      if n ≤ acc2.length then acc2
      else
        greedyGo n (fun s => if s = p.subreddit then subCnt s + 1 else subCnt s)
          (fun t => if t = contentType p then tCnt t + 1 else tCnt t) acc2 rest

/-- Greedy pass of the diversifier, started from empty counters. -/
def greedySelect (scored : List (Post K)) (n : Nat) : List (Post K) :=
  greedyGo n (fun _ => 0) (fun _ => 0) [] scored

/-- Model of RankingPipeline.apply_business_rules (ml/ranking.py). Takes the
score-sorted candidate pairs, the user row (None gives exploration rate
0.5), the requested item count, and the random draws of the exploration
substitution: the sampled positions expIdxs and the ORDER BY random() posts
expPosts. An out-of-range position leaves the list unchanged, mirroring the
idx < len(final_posts) guard. -/
def apply_business_rules [FloorRing K] (user? : Option (User K))
    (scored : List (Post K × K)) (num_items : Nat) (expIdxs : List Nat)
    (expPosts : List (Post K)) : List (Post K) :=
  let rate : K := match user? with | some u => u.exploration_rate | none => 1 / 2
  let final := greedySelect (scored.map fun pr => pr.1) num_items
  let numExp := (⌊(num_items : K) * rate⌋).toNat
  if 0 < numExp ∧ numExp < final.length then
    (expIdxs.zip (expPosts.take numExp)).foldl (fun f ie => f.set ie.1 ie.2) final
  else final

/-- Model of RankingPipeline.get_recommendations: candidate generation with
a pool target of 100, scoring, then business rules. The result is the final
post list; the code only reformats these same posts into dictionaries. -/
def get_recommendations [FloorRing K] (user? : Option (User K))
    (catalog : List (Post K)) (interactions : List Interaction)
    (simResults : List (String × K)) (explorationPool : List (Post K))
    (now : K) (expIdxs : List Nat) (expPosts : List (Post K))
    (num_items : Nat) : List (Post K) :=
  let candidates := get_candidates user? catalog interactions simResults
    explorationPool now 100
  if candidates.isEmpty then []
  else apply_business_rules user? (score_candidates user? candidates)
    num_items expIdxs expPosts

/-- Property that a vector is exactly unit length or exactly the zero
vector: the invariant the spec asserts for preference vectors. -/
def unitOrZero (v : List K) : Prop := normSq v = 1 ∨ ∀ x ∈ v, x = 0

instance (v : List K) : Decidable (unitOrZero v) :=
  decidable_of_iff (normSq v = 1 ∨ ∀ x ∈ v, x = 0) Iff.rfl

end Model

section VecLemmas

variable {K : Type} [LinearOrderedField K]

/-- Real.sqrt is an exact nonnegative square root. -/
theorem real_sqrt_spec : IsSqrt Real.sqrt := fun x hx =>
  ⟨Real.mul_self_sqrt hx, Real.sqrt_nonneg x⟩

@[simp]
theorem normSq_nil : normSq ([] : List K) = 0 := rfl

@[simp]
theorem normSq_cons (x : K) (v : List K) :
    normSq (x :: v) = x * x + normSq v := by
  simp [normSq]

theorem normSq_nonneg (v : List K) : 0 ≤ normSq v := by
  induction v with
  | nil => simp
  | cons x t ih => simpa using add_nonneg (mul_self_nonneg x) ih

theorem normSq_eq_zero_iff (v : List K) : normSq v = 0 ↔ ∀ x ∈ v, x = 0 := by
  induction v with
  | nil => simp
  | cons x t ih =>
    rw [normSq_cons, add_eq_zero_iff_of_nonneg (mul_self_nonneg x) (normSq_nonneg t)]
    simp [mul_self_eq_zero, ih]

@[simp]
theorem smulL_cons (c x : K) (v : List K) :
    smulL c (x :: v) = c * x :: smulL c v := rfl

theorem normSq_smulL (c : K) (v : List K) :
    normSq (smulL c v) = c * c * normSq v := by
  induction v with
  | nil => simp [smulL]
  | cons x t ih => rw [smulL_cons, normSq_cons, normSq_cons, ih]; ring

theorem normSq_map_div (v : List K) (n : K) :
    normSq (v.map fun x => x / n) = normSq v / (n * n) := by
  induction v with
  | nil => simp
  | cons x t ih =>
    simp only [List.map_cons, normSq_cons, ih]
    rw [div_mul_div_comm, add_div]

theorem normalizeWith_zero_case (sqrt : K → K) (hsq : IsSqrt sqrt) (v : List K)
    (h : normSq v = 0) : normalizeWith sqrt v = v := by
  have hmul := (hsq (normSq v) (normSq_nonneg v)).1
  rw [h] at hmul
  have h0 : sqrt (0 : K) = 0 := mul_self_eq_zero.mp hmul
  unfold normalizeWith
  rw [h, h0, if_neg (lt_irrefl 0)]

theorem normalizeWith_pos_case (sqrt : K → K) (hsq : IsSqrt sqrt) (v : List K)
    (h : normSq v ≠ 0) : normSq (normalizeWith sqrt v) = 1 := by
  obtain ⟨hmul, hnn⟩ := hsq (normSq v) (normSq_nonneg v)
  have hne : sqrt (normSq v) ≠ 0 := by
    intro h0
    rw [h0, zero_mul] at hmul
    exact h hmul.symm
  have hn : 0 < sqrt (normSq v) := lt_of_le_of_ne hnn (Ne.symm hne)
  unfold normalizeWith
  rw [if_pos hn, normSq_map_div, hmul, div_self h]

theorem normalizeWith_unitOrZero (sqrt : K → K) (hsq : IsSqrt sqrt)
    (v : List K) : unitOrZero (normalizeWith sqrt v) := by
  by_cases h : normSq v = 0
  · right
    rw [normalizeWith_zero_case sqrt hsq v h]
    exact (normSq_eq_zero_iff v).mp h
  · left
    exact normalizeWith_pos_case sqrt hsq v h

theorem normalizeWith_smul_unit (sqrt : K → K) (hsq : IsSqrt sqrt)
    (v : List K) (hv : normSq v = 1) (c : K) (hc : c ≠ 0) :
    normalizeWith sqrt (smulL c v) =
      if 0 < c then v else v.map fun x => -x := by
  have hs : normSq (smulL c v) = c * c := by rw [normSq_smulL, hv, mul_one]
  obtain ⟨hmul, hnn⟩ := hsq (c * c) (mul_self_nonneg c)
  have habs : sqrt (normSq (smulL c v)) = |c| := by
    rw [hs]
    exact (mul_self_inj_of_nonneg hnn (abs_nonneg c)).mp
      (by rw [hmul, abs_mul_abs_self])
  have hpos : 0 < |c| := abs_pos.mpr hc
  unfold normalizeWith
  rw [habs, if_pos hpos]
  unfold smulL
  rw [List.map_map]
  rcases lt_or_gt_of_ne hc with hneg | hposc
  · rw [if_neg (not_lt.mpr (le_of_lt hneg)), abs_of_neg hneg]
    have hfun : ((fun x : K => x / -c) ∘ fun x : K => c * x) = fun x : K => -x := by
      funext x
      simp only [Function.comp_apply]
      rw [div_neg, mul_div_cancel_left₀ x hc]
    rw [hfun]
  · rw [if_pos hposc, abs_of_pos hposc]
    have hfun : ((fun x : K => x / c) ∘ fun x : K => c * x) = fun x : K => x := by
      funext x
      simp only [Function.comp_apply]
      exact mul_div_cancel_left₀ x hc
    rw [hfun, List.map_id']

theorem zipWith_sub_smulL_self (c : K) (v : List K) :
    List.zipWith (fun x y => x - y) v (smulL c v) = smulL (1 - c) v := by
  induction v with
  | nil => rfl
  | cons x t ih =>
    simp only [smulL_cons, List.zipWith_cons_cons, ih]
    congr 1
    ring

theorem zipWith_sub_replicate_zero (w : List K) :
    List.zipWith (fun x y => x - y) (List.replicate w.length 0) w =
      w.map fun x => -x := by
  induction w with
  | nil => rfl
  | cons x t ih =>
    simp only [List.length_cons, List.replicate_succ, List.zipWith_cons_cons,
      List.map_cons, ih, zero_sub]

theorem map_neg_smulL (c : K) (v : List K) :
    (smulL c v).map (fun x => -x) = smulL (-c) v := by
  induction v with
  | nil => rfl
  | cons x t ih =>
    simp only [smulL_cons, List.map_cons, ih, neg_mul]

theorem normSq_one_ne_nil {v : List K} (hv : normSq v = 1) : v ≠ [] := by
  intro h
  rw [h] at hv
  simp at hv

/-- Unfolding equation of the online update in the dislike branch. -/
theorem update_online_dislike_eq (sqrt : K → K) (userEmb postEmb : List K)
    (lr : K) :
    update_user_embedding_online sqrt InteractionType.dislike userEmb postEmb lr =
      normalizeWith sqrt (List.zipWith (fun x y => x - y)
        (if userEmb.isEmpty then List.replicate postEmb.length 0 else userEmb)
        (smulL (lr * (1 / 2)) postEmb)) := rfl

/-- Core of the dislike-on-own-vector scenario: with any learning rate
strictly below 2, the dislike update on an item vector equal to the current
unit-norm preference vector returns the preference vector unchanged,
because normalize((1 - lr/2) v) = v. -/
theorem dislike_self_unit (sqrt : K → K) (hsq : IsSqrt sqrt) (e : List K)
    (he : normSq e = 1) (lr : K) (hlr : lr < 2) :
    update_user_embedding_online sqrt InteractionType.dislike e e lr = e := by
  have hne : e ≠ [] := normSq_one_ne_nil he
  have hemp : e.isEmpty = false := by
    cases e with
    | nil => exact absurd rfl hne
    | cons a t => rfl
  rw [update_online_dislike_eq, hemp]
  simp only [Bool.false_eq_true, if_false]
  rw [zipWith_sub_smulL_self]
  have hc : (1 : K) - lr * (1 / 2) ≠ 0 := by nlinarith
  rw [normalizeWith_smul_unit sqrt hsq e he _ hc,
    if_pos (by nlinarith : (0 : K) < 1 - lr * (1 / 2))]

/-- Core of the dislike-from-zero scenario: starting from the missing or
the all-zero preference vector, a dislike with learning rate 0 < lr < 2 on a
unit item vector lands exactly on the negation of the item vector. -/
theorem dislike_from_zero (sqrt : K → K) (hsq : IsSqrt sqrt) (e : List K)
    (he : normSq e = 1) (userEmb : List K) (lr : K) (hlr0 : 0 < lr)
    (h0 : userEmb = [] ∨ userEmb = List.replicate e.length 0) :
    update_user_embedding_online sqrt InteractionType.dislike userEmb e lr =
      e.map fun x => -x := by
  have hne : e ≠ [] := normSq_one_ne_nil he
  have hu : (if userEmb.isEmpty then List.replicate e.length 0 else userEmb) =
      List.replicate e.length 0 := by
    rcases h0 with h | h
    · rw [h]; rfl
    · rw [h]; split <;> rfl
  rw [update_online_dislike_eq, hu]
  have hlen : (smulL (lr * (1 / 2)) e).length = e.length := by
    unfold smulL; rw [List.length_map]
  rw [← hlen, zipWith_sub_replicate_zero, map_neg_smulL]
  have hc : -(lr * (1 / 2)) ≠ 0 := by
    intro h
    have : lr * (1 / 2) = 0 := by linarith [neg_eq_zero.mp h]
    nlinarith
  rw [normalizeWith_smul_unit sqrt hsq e he _ hc,
    if_neg (by nlinarith : ¬(0 : K) < -(lr * (1 / 2)))]

end VecLemmas

section EmbeddingClaims

variable {K : Type} [LinearOrderedField K]

/-- C8: normalize, the normalization step shared by both preference-update
paths, maps every vector with a nonzero entry to a vector of unit L2 norm
(squared norm exactly 1) and returns an all-zero vector unchanged; the
norm > 0 guard prevents any division by zero. sqrt is any exact nonnegative
square root, for instance Real.sqrt. -/
theorem c8_normalize_safe (sqrt : K → K) (hsq : IsSqrt sqrt) (v : List K) :
    ((∃ x ∈ v, x ≠ 0) → normSq (normalizeWith sqrt v) = 1) ∧
    ((∀ x ∈ v, x = 0) → normalizeWith sqrt v = v) := by
  constructor
  · rintro ⟨x, hx, hx0⟩
    apply normalizeWith_pos_case sqrt hsq
    intro h
    exact hx0 ((normSq_eq_zero_iff v).mp h x hx)
  · intro h
    exact normalizeWith_zero_case sqrt hsq v ((normSq_eq_zero_iff v).mpr h)

/-- Witness for c8_normalize_safe at the real vector [3, 4]. -/
theorem c8_normalize_safe_witness :
    normSq (normalizeWith Real.sqrt [(3 : ℝ), 4]) = 1 :=
  (c8_normalize_safe Real.sqrt real_sqrt_spec [(3 : ℝ), 4]).1
    ⟨3, by simp, by norm_num⟩

/-- C3 (amended): contrary to the claimed strict decrease, a dislike update
with the default learning rate 0.1 on an item whose unit-norm vector equals
the current preference vector leaves the preference vector unchanged, since
normalize(old - 0.05 old) = normalize(0.95 old) = old; the cosine
similarity to the item therefore equals its pre-update value exactly. -/
theorem c3_dislike_unchanged (sqrt : K → K) (hsq : IsSqrt sqrt) (e : List K)
    (he : normSq e = 1) :
    update_user_embedding_online sqrt InteractionType.dislike e e (1 / 10) = e ∧
    ¬(dotL (update_user_embedding_online sqrt InteractionType.dislike e e
        (1 / 10)) e < dotL e e) := by
  have h := dislike_self_unit sqrt hsq e he (1 / 10) (by norm_num)
  exact ⟨h, by rw [h]; exact lt_irrefl _⟩

/-- Counterexample to C3 as stated: over the reals with the actual square
root, preference vector and item vector both the unit vector [1, 0], the
post-update cosine similarity to the item is not strictly below the
pre-update one: the updated vector is [1, 0] again and both similarities
equal 1. -/
theorem c3_dislike_counterexample :
    ¬(dotL (update_user_embedding_online Real.sqrt InteractionType.dislike
        [(1 : ℝ), 0] [(1 : ℝ), 0] (1 / 10)) [(1 : ℝ), 0]
      < dotL [(1 : ℝ), 0] [(1 : ℝ), 0]) := by
  rw [dislike_self_unit Real.sqrt real_sqrt_spec [(1 : ℝ), 0] (by simp)
    (1 / 10) (by norm_num)]
  exact lt_irrefl _

/-- Witness for c3_dislike_unchanged at the real unit vector [1, 0]. -/
theorem c3_dislike_unchanged_witness :
    update_user_embedding_online Real.sqrt InteractionType.dislike
      [(1 : ℝ), 0] [(1 : ℝ), 0] (1 / 10) = [(1 : ℝ), 0] :=
  (c3_dislike_unchanged Real.sqrt real_sqrt_spec [(1 : ℝ), 0] (by simp)).1

/-- C10: from a missing or all-zero stored preference vector, one dislike
update with learning rate 0.1 on a unit-norm item vector e yields exactly
the negation of e, not the zero vector: the raw result -0.05 e has positive
norm and normalizes to -e. -/
theorem c10_dislike_from_zero (sqrt : K → K) (hsq : IsSqrt sqrt) (e : List K)
    (he : normSq e = 1) (userEmb : List K)
    (h0 : userEmb = [] ∨ userEmb = List.replicate e.length 0) :
    update_user_embedding_online sqrt InteractionType.dislike userEmb e
        (1 / 10) = e.map (fun x => -x) ∧
    ¬(∀ x ∈ update_user_embedding_online sqrt InteractionType.dislike userEmb e
        (1 / 10), x = 0) := by
  have h := dislike_from_zero sqrt hsq e he userEmb (1 / 10) (by norm_num) h0
  refine ⟨h, ?_⟩
  rw [h]
  intro hall
  have hz : ∀ x ∈ e, x = 0 := fun x hx =>
    neg_eq_zero.mp (hall (-x) (List.mem_map_of_mem _ hx))
  rw [(normSq_eq_zero_iff e).mpr hz] at he
  exact zero_ne_one he

/-- Witness for c10_dislike_from_zero: missing stored vector, real item
vector [1, 0]. -/
theorem c10_dislike_from_zero_witness :
    update_user_embedding_online Real.sqrt InteractionType.dislike
      [] [(1 : ℝ), 0] (1 / 10) = [(1 : ℝ), 0].map (fun x => -x) :=
  (c10_dislike_from_zero Real.sqrt real_sqrt_spec [(1 : ℝ), 0] (by simp) []
    (Or.inl rfl)).1

/-- C6 (amended): the online update always returns a unit-norm or all-zero
vector, and so does the batch recompute whenever the user has at least one
like interaction; the no-likes fallback, by contrast, returns the raw
unnormalized mean of the sampled embeddings, which need be neither (see the
counterexample). -/
theorem c6_update_paths_unit_or_zero (sqrt : K → K) (hsq : IsSqrt sqrt) :
    (∀ (t : InteractionType) (userEmb postEmb : List K) (lr : K),
       unitOrZero (update_user_embedding_online sqrt t userEmb postEmb lr)) ∧
    (∀ (likedInteractions : List (String × K)) (dislikedIds : List String)
       (lookup : String → Option (Post K)) (samplePosts : List (Post K))
       (dim : Nat), likedInteractions ≠ [] →
       unitOrZero (generate_user_embedding sqrt likedInteractions dislikedIds
         lookup samplePosts dim)) := by
  constructor
  · intro t userEmb postEmb lr
    exact normalizeWith_unitOrZero sqrt hsq _
  · intro li di lookup sp dim hli
    cases li with
    | nil => exact absurd rfl hli
    | cons a t => exact normalizeWith_unitOrZero sqrt hsq _

/-- Concrete catalog post with embedding [1, 0], used by counterexamples. -/
def samplePostA : Post ℚ :=
  { post_id := "a", subreddit := "s1", score := 0, num_comments := 0,
    upvote_ratio := 0, post_age_hours := none, created_utc := 0,
    is_video := false, is_self := true, nsfw := false, embedding := [1, 0] }

/-- Concrete catalog post with embedding [0, 1], used by counterexamples. -/
def samplePostB : Post ℚ :=
  { samplePostA with post_id := "b", embedding := [0, 1] }

/-- Counterexample to C6 as stated: with no like interactions the batch
recompute falls back to the raw mean of the sampled catalog embeddings,
here ([1,0] + [0,1]) / 2 = [1/2, 1/2], whose squared norm is 1/2: neither
unit length nor the zero vector. The fallback path returns before the
normalization step, so this holds for every square-root function. -/
theorem c6_fallback_counterexample :
    generate_user_embedding (fun _ => (0 : ℚ)) [] [] (fun _ => none)
        [samplePostA, samplePostB] 2 = [(1 : ℚ) / 2, 1 / 2] ∧
    ¬unitOrZero (generate_user_embedding (fun _ => (0 : ℚ)) [] []
        (fun _ => none) [samplePostA, samplePostB] 2) := by
  have h : generate_user_embedding (fun _ => (0 : ℚ)) [] [] (fun _ => none)
      [samplePostA, samplePostB] 2 = [(1 : ℚ) / 2, 1 / 2] := by
    simp [generate_user_embedding, meanVec, sumVecs, smulL, samplePostA,
      samplePostB]
  refine ⟨h, ?_⟩
  rw [h]
  unfold unitOrZero
  push_neg
  refine ⟨by norm_num [normSq], ⟨(1 : ℚ) / 2, by simp, by norm_num⟩⟩

/-- Witness for c6_update_paths_unit_or_zero: an online like update from a
missing vector and a batch recompute with one like interaction, over ℝ. -/
theorem c6_update_paths_unit_or_zero_witness :
    unitOrZero (update_user_embedding_online Real.sqrt InteractionType.like
      [] [(1 : ℝ), 0] (1 / 10)) ∧
    unitOrZero (generate_user_embedding Real.sqrt [("p", (45 : ℝ))] []
      (fun _ => none) [] 2) :=
  ⟨(c6_update_paths_unit_or_zero Real.sqrt real_sqrt_spec).1 _ _ _ _,
   (c6_update_paths_unit_or_zero Real.sqrt real_sqrt_spec).2
     [("p", (45 : ℝ))] [] (fun _ => none) [] 2 (by simp)⟩

/-- C2: evaluation of find_similar_posts at the failing input, namely the
in-memory index absent and no saved index file on disk. The claim (and the
spec, section 4.1) requires an empty result and no inline index build; the
code instead triggers the blocking generate_post_embeddings rebuild inline
(the flag of the result is true) and returns the results of searching the
freshly built index, here a nonempty list. -/
theorem c2_query_unbuilt_index_code_bug :
    (find_similar_posts (fun _ => (0 : ℚ)) (fun _ => [1, 0]) none none
        [samplePostA] [1, 0] 5).2 = true ∧
    (find_similar_posts (fun _ => (0 : ℚ)) (fun _ => [1, 0]) none none
        [samplePostA] [1, 0] 5).1 ≠ [] := by
  decide

end EmbeddingClaims

section RankingLemmas

variable {K : Type} [LinearOrderedField K]

theorem dedupGo_ids (l : List (Post K)) : ∀ seen : List String,
    ((dedupGo seen l).map fun p => p.post_id).Nodup ∧
    ∀ pid ∈ (dedupGo seen l).map fun p => p.post_id, pid ∉ seen := by
  induction l with
  | nil => intro seen; simp [dedupGo]
  | cons p rest ih =>
    intro seen
    by_cases h : p.post_id ∈ seen
    · simpa [dedupGo, h] using ih seen
    · have ih2 := ih (p.post_id :: seen)
      rw [show dedupGo seen (p :: rest) = p :: dedupGo (p.post_id :: seen) rest
          from by rw [dedupGo, if_neg h]]
      simp only [List.map_cons, List.nodup_cons, List.mem_cons]
      refine ⟨⟨fun hmem => ?_, ih2.1⟩, fun pid hpid => ?_⟩
      · exact (ih2.2 p.post_id hmem) (List.mem_cons_self _ _)
      · rcases hpid with h1 | h1
        · rw [h1]; exact h
        · exact fun hs => (ih2.2 pid h1) (List.mem_cons_of_mem _ hs)

theorem dedupGo_subset (l : List (Post K)) : ∀ seen : List String,
    ∀ p ∈ dedupGo seen l, p ∈ l := by
  induction l with
  | nil => intro seen p hp; simp [dedupGo] at hp
  | cons q rest ih =>
    intro seen p hp
    rw [dedupGo] at hp
    split at hp
    · exact List.mem_cons_of_mem _ (ih _ p hp)
    · rcases hp with _ | hp
      · exact List.mem_cons_self _ _
      · exact List.mem_cons_of_mem _ (ih _ p (by assumption))

theorem mem_similarityCandidates_not_seen (catalog : List (Post K))
    (seen : List String) (userEmb : List K) (simResults : List (String × K))
    (p : Post K) (hp : p ∈ similarityCandidates catalog seen userEmb simResults) :
    p.post_id ∉ seen := by
  unfold similarityCandidates at hp
  split at hp
  · simp at hp
  · obtain ⟨pr, _, hf⟩ := List.mem_filterMap.mp hp
    by_cases hmem : pr.1 ∈ seen
    · rw [if_pos hmem] at hf; exact absurd hf (by simp)
    · rw [if_neg hmem] at hf
      have h3 := List.find?_some hf
      simp only [beq_iff_eq] at h3
      rw [h3]
      exact hmem

theorem mem_trendingCandidates_not_seen (catalog : List (Post K))
    (seen : List String) (now : K) (k : Nat) (p : Post K)
    (hp : p ∈ trendingCandidates catalog seen now k) : p.post_id ∉ seen := by
  unfold trendingCandidates sortByVelocityDesc at hp
  have h1 := List.mem_insertionSort _ |>.mp (List.mem_of_mem_take hp)
  have h2 := (List.mem_filter.mp h1).2
  rw [Bool.and_eq_true] at h2
  exact of_decide_eq_true h2.2

theorem mem_subredditCandidates_not_seen (catalog : List (Post K))
    (seen : List String) (prefs : List (String × K)) (p : Post K)
    (hp : p ∈ subredditCandidates catalog seen prefs) : p.post_id ∉ seen := by
  unfold subredditCandidates sortByScoreDesc at hp
  obtain ⟨l, hl, hpl⟩ := List.mem_flatten.mp hp
  obtain ⟨sw, _, rfl⟩ := List.mem_map.mp hl
  have h1 := List.mem_insertionSort _ |>.mp (List.mem_of_mem_take hpl)
  have h2 := (List.mem_filter.mp h1).2
  rw [Bool.and_eq_true] at h2
  exact of_decide_eq_true h2.2

theorem mem_explorationCandidates_not_seen (explorationPool : List (Post K))
    (seen : List String) (k : Nat) (p : Post K)
    (hp : p ∈ explorationCandidates explorationPool seen k) :
    p.post_id ∉ seen := by
  unfold explorationCandidates at hp
  have h1 := (List.mem_filter.mp (List.mem_of_mem_take hp)).2
  exact of_decide_eq_true h1

end RankingLemmas

section GreedyLemmas

variable {K : Type} [LinearOrderedField K]

theorem greedyGo_append (l : List (Post K)) : ∀ (n : Nat) (sc : String → Nat)
    (tc : CType → Nat) (acc : List (Post K)),
    ∃ t, greedyGo n sc tc acc l = acc ++ t := by
  induction l with
  | nil => intro n sc tc acc; exact ⟨[], by simp [greedyGo]⟩
  | cons p rest ih =>
    intro n sc tc acc
    simp only [greedyGo]
    split
    · exact ih n sc tc acc
    split
    · exact ih n sc tc acc
    split
    · exact ih n sc tc acc
    split
    · exact ⟨[p], rfl⟩
    · obtain ⟨t, ht⟩ := ih n _ _ (acc ++ [p])
      exact ⟨[p] ++ t, by rw [ht, List.append_assoc]⟩

theorem greedyGo_mem (l : List (Post K)) : ∀ (n : Nat) (sc : String → Nat)
    (tc : CType → Nat) (acc : List (Post K)) (p : Post K),
    p ∈ greedyGo n sc tc acc l → p ∈ acc ∨ p ∈ l := by
  induction l with
  | nil => intro n sc tc acc p hp; rw [greedyGo] at hp; exact Or.inl hp
  | cons q rest ih =>
    intro n sc tc acc p hp
    simp only [greedyGo] at hp
    have hstep : p ∈ acc ∨ p ∈ rest → p ∈ acc ∨ p ∈ q :: rest := by
      rintro (h | h)
      · exact Or.inl h
      · exact Or.inr (List.mem_cons_of_mem _ h)
    split at hp
    · exact hstep (ih n sc tc acc p hp)
    split at hp
    · exact hstep (ih n sc tc acc p hp)
    split at hp
    · exact hstep (ih n sc tc acc p hp)
    split at hp
    · rcases List.mem_append.mp hp with h | h
      · exact Or.inl h
      · exact Or.inr (List.mem_cons.mpr (Or.inl (List.mem_singleton.mp h)))
    · rcases ih n _ _ (acc ++ [q]) p hp with h | h
      · rcases List.mem_append.mp h with h2 | h2
        · exact Or.inl h2
        · exact Or.inr (List.mem_cons.mpr (Or.inl (List.mem_singleton.mp h2)))
      · exact Or.inr (List.mem_cons_of_mem _ h)

theorem greedyGo_nsfw (l : List (Post K)) : ∀ (n : Nat) (sc : String → Nat)
    (tc : CType → Nat) (acc : List (Post K)),
    (∀ p ∈ acc, p.nsfw = false) →
    ∀ p ∈ greedyGo n sc tc acc l, p.nsfw = false := by
  induction l with
  | nil => intro n sc tc acc hacc p hp; rw [greedyGo] at hp; exact hacc p hp
  | cons q rest ih =>
    intro n sc tc acc hacc p hp
    simp only [greedyGo] at hp
    split at hp
    · exact ih n sc tc acc hacc p hp
    split at hp
    · exact ih n sc tc acc hacc p hp
    split at hp
    · exact ih n sc tc acc hacc p hp
    case isFalse hq =>
    have hq' : q.nsfw = false := Bool.not_eq_true _ |>.mp hq
    have hacc2 : ∀ r ∈ acc ++ [q], r.nsfw = false := by
      intro r hr
      rcases List.mem_append.mp hr with h | h
      · exact hacc r h
      · rw [List.mem_singleton.mp h]; exact hq'
    split at hp
    · exact hacc2 p hp
    · exact ih n _ _ (acc ++ [q]) hacc2 p hp

theorem greedyGo_countP_sub (l : List (Post K)) : ∀ (n : Nat)
    (sc : String → Nat) (tc : CType → Nat) (acc : List (Post K)) (s : String),
    acc.countP (fun q => decide (q.subreddit = s)) ≤ sc s → sc s ≤ 2 →
    (greedyGo n sc tc acc l).countP (fun q => decide (q.subreddit = s)) ≤ 2 := by
  induction l with
  | nil =>
    intro n sc tc acc s h1 h2
    rw [greedyGo]
    exact h1.trans h2
  | cons q rest ih =>
    intro n sc tc acc s h1 h2
    simp only [greedyGo]
    split
    case isTrue => exact ih n sc tc acc s h1 h2
    case isFalse hsub =>
    split
    case isTrue => exact ih n sc tc acc s h1 h2
    case isFalse =>
    split
    case isTrue => exact ih n sc tc acc s h1 h2
    case isFalse =>
    have hcount : (acc ++ [q]).countP (fun r => decide (r.subreddit = s)) =
        acc.countP (fun r => decide (r.subreddit = s)) +
          if q.subreddit = s then 1 else 0 := by
      rw [List.countP_append]
      simp [List.countP_cons]
    by_cases hqs : q.subreddit = s
    · have hlt : sc s < 2 := by
        rw [← hqs]
        exact Nat.lt_of_not_le hsub
      have hle1 : acc.countP (fun r => decide (r.subreddit = s)) + 1 ≤ 2 := by
        have := h1.trans (Nat.le_of_lt_succ hlt)
        omega
      split
      · rw [hcount, if_pos hqs]
        exact hle1
      · apply ih _ _ _ _ s
        · rw [hcount, if_pos hqs]
          have : (if s = q.subreddit then sc s + 1 else sc s) = sc s + 1 := by
            rw [if_pos hqs.symm]
          rw [this]
          exact Nat.add_le_add_right h1 1
        · have : (if s = q.subreddit then sc s + 1 else sc s) = sc s + 1 := by
            rw [if_pos hqs.symm]
          rw [this]
          exact Nat.succ_le_of_lt hlt
    · split
      · rw [hcount, if_neg hqs, Nat.add_zero]
        exact h1.trans h2
      · apply ih _ _ _ _ s
        · rw [hcount, if_neg hqs, Nat.add_zero]
          have : (if s = q.subreddit then sc s + 1 else sc s) = sc s := by
            rw [if_neg fun h => hqs h.symm]
          rw [this]
          exact h1
        · have : (if s = q.subreddit then sc s + 1 else sc s) = sc s := by
            rw [if_neg fun h => hqs h.symm]
          rw [this]
          exact h2

theorem greedyGo_countP_bucket (l : List (Post K)) : ∀ (n : Nat)
    (sc : String → Nat) (tc : CType → Nat) (acc : List (Post K)) (t : CType),
    acc.countP (fun q => decide (contentType q = t)) ≤ tc t → tc t ≤ n / 2 →
    (greedyGo n sc tc acc l).countP (fun q => decide (contentType q = t))
      ≤ n / 2 := by
  induction l with
  | nil =>
    intro n sc tc acc t h1 h2
    rw [greedyGo]
    exact h1.trans h2
  | cons q rest ih =>
    intro n sc tc acc t h1 h2
    simp only [greedyGo]
    split
    case isTrue => exact ih n sc tc acc t h1 h2
    case isFalse =>
    split
    case isTrue => exact ih n sc tc acc t h1 h2
    case isFalse hcap =>
    split
    case isTrue => exact ih n sc tc acc t h1 h2
    case isFalse =>
    have hcount : (acc ++ [q]).countP (fun r => decide (contentType r = t)) =
        acc.countP (fun r => decide (contentType r = t)) +
          if contentType q = t then 1 else 0 := by
      rw [List.countP_append]
      simp [List.countP_cons]
    by_cases hqt : contentType q = t
    · have hlt : tc t < n / 2 := by
        rw [← hqt]
        exact Nat.lt_of_not_le hcap
      split
      · rw [hcount, if_pos hqt]
        omega
      · apply ih _ _ _ _ t
        · rw [hcount, if_pos hqt]
          have : (if t = contentType q then tc t + 1 else tc t) = tc t + 1 := by
            rw [if_pos hqt.symm]
          rw [this]
          exact Nat.add_le_add_right h1 1
        · have : (if t = contentType q then tc t + 1 else tc t) = tc t + 1 := by
            rw [if_pos hqt.symm]
          rw [this]
          exact Nat.succ_le_of_lt hlt
    · split
      · rw [hcount, if_neg hqt, Nat.add_zero]
        exact h1.trans h2
      · apply ih _ _ _ _ t
        · rw [hcount, if_neg hqt, Nat.add_zero]
          have : (if t = contentType q then tc t + 1 else tc t) = tc t := by
            rw [if_neg fun h => hqt h.symm]
          rw [this]
          exact h1
        · have : (if t = contentType q then tc t + 1 else tc t) = tc t := by
            rw [if_neg fun h => hqt h.symm]
          rw [this]
          exact h2

end GreedyLemmas

section RankingClaims

variable {K : Type} [LinearOrderedField K]

theorem foldl_set_length (pairs : List (Nat × Post K)) : ∀ f : List (Post K),
    (pairs.foldl (fun l ie => l.set ie.1 ie.2) f).length = f.length := by
  induction pairs with
  | nil => intro f; rfl
  | cons a t ih => intro f; rw [List.foldl_cons, ih, List.length_set]

theorem apply_business_rules_length [FloorRing K] (user? : Option (User K))
    (scored : List (Post K × K)) (n : Nat) (idxs : List Nat)
    (exps : List (Post K)) :
    (apply_business_rules user? scored n idxs exps).length =
      (greedySelect (scored.map fun pr => pr.1) n).length := by
  simp only [apply_business_rules]
  split
  · exact foldl_set_length _ _
  · rfl

theorem mem_score_candidates_map_fst (user? : Option (User K))
    (cands : List (Post K)) (p : Post K)
    (hp : p ∈ (score_candidates user? cands).map fun pr => pr.1) :
    p ∈ cands := by
  obtain ⟨pr, hpr, rfl⟩ := List.mem_map.mp hp
  unfold score_candidates at hpr
  have h1 := List.mem_insertionSort _ |>.mp hpr
  obtain ⟨q, hq, rfl⟩ := List.mem_map.mp h1
  exact hq

theorem greedySelect_length_le_half (l : List (Post K)) (n : Nat) (t : CType)
    (h : ∀ p ∈ l, contentType p = t) : (greedySelect l n).length ≤ n / 2 := by
  have hall : ∀ p ∈ greedySelect l n,
      (fun q => decide (contentType q = t)) p = true := by
    intro p hp
    rcases greedyGo_mem l n _ _ [] p hp with h2 | h2
    · exact absurd h2 (List.not_mem_nil p)
    · simp only [decide_eq_true_eq]
      exact h p h2
  have hcount := List.countP_eq_length.mpr hall
  rw [← hcount]
  exact greedyGo_countP_bucket l n _ _ [] t (by simp) (Nat.zero_le _)

/-- C9: a candidate whose stored age is missing or exactly 0 is scored with
the freshness of a 24-hour-old item, max(0, 1 - 24/168), which is strictly
below the maximal freshness 1: a brand-new item does not get freshness 1. -/
theorem c9_freshness_zero_age (p : Post K)
    (h : p.post_age_hours = none ∨ p.post_age_hours = some 0) :
    freshnessScore p = max 0 (1 - 24 / 168) ∧ freshnessScore p < 1 := by
  have hh : hoursOld p = 24 := by
    rcases h with h | h
    · simp [hoursOld, h]
    · simp [hoursOld, h]
  constructor
  · rw [freshnessScore, hh]
  · rw [freshnessScore, hh]
    rw [max_eq_right (by norm_num : (0 : K) ≤ 1 - 24 / 168)]
    norm_num

/-- Witness for c9_freshness_zero_age at a concrete post with missing age. -/
theorem c9_freshness_zero_age_witness :
    freshnessScore (K := ℚ) samplePostA = max 0 (1 - 24 / 168) ∧
    freshnessScore (K := ℚ) samplePostA < 1 :=
  c9_freshness_zero_age samplePostA (Or.inl rfl)

/-- C5 (amended): in the greedy pass, a candidate that passes the subreddit
rule and is not NSFW is skipped by the content-type rule exactly when its
bucket already holds num_items / 2 accepted items, with / the integer
division (floor); for odd requested counts the cap is (n - 1) / 2, not
(n + 1) / 2 as the claim states. -/
theorem c5_bucket_cap_floor (n : Nat) (subCnt : String → Nat)
    (tCnt : CType → Nat) (acc : List (Post K)) (p : Post K)
    (rest : List (Post K)) (hsub : subCnt p.subreddit < 2)
    (hnsfw : p.nsfw = false) :
    (n / 2 ≤ tCnt (contentType p) →
      greedyGo n subCnt tCnt acc (p :: rest) =
        greedyGo n subCnt tCnt acc rest) ∧
    (tCnt (contentType p) < n / 2 →
      p ∈ greedyGo n subCnt tCnt acc (p :: rest)) := by
  constructor
  · intro hcap
    simp only [greedyGo]
    rw [if_neg (Nat.not_le.mpr hsub), if_pos hcap]
  · intro hcap
    simp only [greedyGo]
    rw [if_neg (Nat.not_le.mpr hsub), if_neg (Nat.not_le.mpr hcap),
      if_neg (by simp [hnsfw])]
    split
    · exact List.mem_append.mpr (Or.inr (List.mem_singleton.mpr rfl))
    · obtain ⟨t, ht⟩ := greedyGo_append rest n _ _ (acc ++ [p])
      rw [ht]
      exact List.mem_append.mpr
        (Or.inl (List.mem_append.mpr (Or.inr (List.mem_singleton.mpr rfl))))

/-- Witness for c5_bucket_cap_floor: with requested count 2 the text cap is
2 / 2 = 1 > 0, so a first safe text post is accepted. -/
theorem c5_bucket_cap_floor_witness :
    samplePostA ∈ greedyGo (K := ℚ) 2 (fun _ => 0) (fun _ => 0) []
      [samplePostA] :=
  (c5_bucket_cap_floor 2 (fun _ => 0) (fun _ => 0) [] samplePostA []
    (by decide) rfl).2 (by decide)

/-- Counterexample to C5 as stated: with requested count 1 the claimed cap
is ceil(1/2) = 1, under which the single safe text candidate (its bucket
holding 0 accepted items) would be accepted; the code caps at 1 / 2 = 0
(integer division), so the candidate is skipped and the greedy pass returns
the empty list. -/
theorem c5_bucket_cap_counterexample :
    greedySelect (K := ℚ) [samplePostA] 1 = [] ∧
    samplePostA.nsfw = false ∧ contentType samplePostA = CType.text ∧
    (1 + 1) / 2 = 1 := by
  decide

/-- C1 (amended): when no exploration substitution happens (exploration rate
0), the diversifier's output satisfies both guarantees: no NSFW post and at
most 2 posts per subreddit; the exploration-substitution step, which
overwrites tail positions with arbitrary catalog draws without re-checking
the rules, can violate both (see the counterexample). -/
theorem c1_diversifier_greedy_caps [FloorRing K] (u : User K)
    (hrate : u.exploration_rate = 0) (scored : List (Post K × K)) (n : Nat)
    (idxs : List Nat) (exps : List (Post K)) :
    (∀ p ∈ apply_business_rules (some u) scored n idxs exps,
      p.nsfw = false) ∧
    ∀ s : String, (apply_business_rules (some u) scored n idxs exps).countP
      (fun q => decide (q.subreddit = s)) ≤ 2 := by
  have heq : apply_business_rules (some u) scored n idxs exps =
      greedySelect (scored.map fun pr => pr.1) n := by
    simp [apply_business_rules, hrate]
  rw [heq]
  unfold greedySelect
  constructor
  · exact greedyGo_nsfw _ n _ _ [] (by intro p hp; exact absurd hp (List.not_mem_nil p))
  · intro s
    exact greedyGo_countP_sub _ n _ _ [] s (by simp) (by norm_num)

/-- Concrete user row with exploration rate 0. -/
def userZeroExp : User ℚ :=
  { user_id := "u0", user_embedding := [], preferred_subreddits := [],
    exploration_rate := 0 }

/-- Witness for c1_diversifier_greedy_caps on a one-candidate list. -/
theorem c1_diversifier_greedy_caps_witness :
    (apply_business_rules (some userZeroExp) [(samplePostA, (0 : ℚ))] 1 []
      []).countP (fun q => decide (q.subreddit = "s1")) ≤ 2 :=
  (c1_diversifier_greedy_caps userZeroExp rfl [(samplePostA, 0)] 1 [] []).2 "s1"

/-- Concrete safe link post in subreddit s2. -/
def divPostLink : Post ℚ :=
  { samplePostA with post_id := "c", subreddit := "s2", is_self := false }

/-- Concrete NSFW post, drawn by the exploration substitution. -/
def divPostNsfw : Post ℚ :=
  { samplePostA with post_id := "x", subreddit := "s3", nsfw := true }

/-- Counterexample to C1 as stated: for the unknown user (exploration rate
0.5) and requested count 2, the greedy pass accepts the two safe posts, and
the exploration substitution then overwrites position 1 with a random
catalog draw that is NSFW-flagged, so the final list contains an unsafe
item. -/
theorem c1_diversifier_counterexample :
    divPostNsfw ∈ apply_business_rules (K := ℚ) none
      [(samplePostA, 0), (divPostLink, 0)] 2 [1] [divPostNsfw] ∧
    divPostNsfw.nsfw = true := by
  have hnum : ((⌊((2 : Nat) : ℚ) * (1 / 2)⌋).toNat) = 1 := by
    rw [show ((2 : Nat) : ℚ) * (1 / 2) = 1 by norm_num, Int.floor_one]
    rfl
  constructor
  · simp only [apply_business_rules]
    rw [hnum]
    decide
  · decide

/-- C7: for a known user the candidate pool contains no two entries with the
same post id and no post id from the user's interaction log: every strategy
filters the seen-set and the final dedup removes repeats; for a user with no
profile row the generator instead returns the top-N catalog posts by raw
score, the only path that ignores the seen-set. -/
theorem c7_candidate_pool_invariants (user : User K) (catalog : List (Post K))
    (interactions : List Interaction) (simResults : List (String × K))
    (explorationPool : List (Post K)) (now : K) (num_candidates : Nat) :
    (((get_candidates (some user) catalog interactions simResults
        explorationPool now num_candidates).map fun p => p.post_id).Nodup) ∧
    (∀ p ∈ get_candidates (some user) catalog interactions simResults
        explorationPool now num_candidates,
      p.post_id ∉ seenPostIds interactions user.user_id) ∧
    ∀ (catalog2 : List (Post K)) (n2 : Nat),
      get_candidates none catalog2 interactions simResults explorationPool
        now n2 = (sortByScoreDesc catalog2).take n2 := by
  have heq : get_candidates (some user) catalog interactions simResults
      explorationPool now num_candidates =
      (dedupById (similarityCandidates catalog
          (seenPostIds interactions user.user_id) user.user_embedding
          simResults ++
        trendingCandidates catalog (seenPostIds interactions user.user_id)
          now (num_candidates * 3 / 10) ++
        subredditCandidates catalog (seenPostIds interactions user.user_id)
          user.preferred_subreddits ++
        explorationCandidates explorationPool
          (seenPostIds interactions user.user_id)
          (num_candidates / 10))).take num_candidates := rfl
  refine ⟨?_, ?_, fun catalog2 n2 => rfl⟩
  · rw [heq, List.map_take]
    exact List.Nodup.sublist (List.take_sublist _ _) (dedupGo_ids _ []).1
  · intro p hp
    rw [heq] at hp
    have h1 := List.mem_of_mem_take hp
    have h2 := dedupGo_subset _ [] p h1
    rcases List.mem_append.mp h2 with h3 | h3
    · rcases List.mem_append.mp h3 with h4 | h4
      · rcases List.mem_append.mp h4 with h5 | h5
        · exact mem_similarityCandidates_not_seen _ _ _ _ p h5
        · exact mem_trendingCandidates_not_seen _ _ _ _ p h5
      · exact mem_subredditCandidates_not_seen _ _ _ p h4
    · exact mem_explorationCandidates_not_seen _ _ _ p h3

/-- Witness for c7_candidate_pool_invariants: a known user whose log holds
the id seen1; the exploration strategy surfaces the unseen post a. -/
theorem c7_candidate_pool_invariants_witness :
    samplePostA.post_id ∉
      seenPostIds [⟨"u0", "seen1"⟩] userZeroExp.user_id :=
  (c7_candidate_pool_invariants userZeroExp [] [⟨"u0", "seen1"⟩] []
    [samplePostA] 0 100).2.1 samplePostA (by decide)

/-- C4 (amended): for a user with no profile row, the candidate stage does
return the min(N, catalog size) highest-raw-score posts in descending raw
score order with ties kept in catalog iteration order (a stable sort), and
every excluded catalog post scores no higher than any returned one; the
final feed, however, is this pool re-ranked by the composite score and cut
down by the diversity rules and the exploration substitution, so it is not
in general the raw-score top 10 (see the counterexample). -/
theorem c4_newuser_candidates_topraw (catalog : List (Post K))
    (interactions : List Interaction) (simResults : List (String × K))
    (explorationPool : List (Post K)) (now : K) (n : Nat) :
    List.Sorted (fun a b : Post K => b.score ≤ a.score)
      (get_candidates none catalog interactions simResults explorationPool
        now n) ∧
    (get_candidates none catalog interactions simResults explorationPool
      now n).length = min n catalog.length ∧
    ∃ rest,
      (get_candidates none catalog interactions simResults explorationPool
        now n ++ rest).Perm catalog ∧
      ∀ p ∈ rest, ∀ q ∈ get_candidates none catalog interactions simResults
        explorationPool now n, p.score ≤ q.score := by
  haveI : IsTotal (Post K) (fun a b => b.score ≤ a.score) :=
    ⟨fun a b => le_total b.score a.score⟩
  haveI : IsTrans (Post K) (fun a b => b.score ≤ a.score) :=
    ⟨fun a b c hab hbc => le_trans hbc hab⟩
  have heq : get_candidates none catalog interactions simResults
      explorationPool now n = (sortByScoreDesc catalog).take n := rfl
  have hsorted : List.Sorted (fun a b : Post K => b.score ≤ a.score)
      (sortByScoreDesc catalog) := List.sorted_insertionSort _ catalog
  refine ⟨?_, ?_, ?_⟩
  · rw [heq]
    exact List.Pairwise.sublist (List.take_sublist _ _) hsorted
  · rw [heq, List.length_take]
    unfold sortByScoreDesc
    rw [List.length_insertionSort]
  · refine ⟨(sortByScoreDesc catalog).drop n, ?_, ?_⟩
    · rw [heq, List.take_append_drop]
      exact List.perm_insertionSort _ catalog
    · intro p hp q hq
      rw [heq] at hq
      exact hsorted.rel_of_mem_take_of_mem_drop hq hp

/-- Witness for c4_newuser_candidates_topraw on a one-post catalog. -/
theorem c4_newuser_candidates_topraw_witness :
    (get_candidates (K := ℚ) none [samplePostA] [] [] [] 0 1).length =
      min 1 ([samplePostA] : List (Post ℚ)).length :=
  (c4_newuser_candidates_topraw [samplePostA] [] [] [] 0 1).2.1

/-- Text post in subreddit s, with the shared default fields. -/
def c4Post (i : String) (s : String) : Post ℚ :=
  { samplePostA with post_id := i, subreddit := s }

/-- Ten-post all-text catalog for the new-user counterexample. -/
def c4Catalog : List (Post ℚ) :=
  [c4Post "1" "r1", c4Post "2" "r2", c4Post "3" "r3", c4Post "4" "r4",
   c4Post "5" "r5", c4Post "6" "r6", c4Post "7" "r7", c4Post "8" "r8",
   c4Post "9" "r9", c4Post "10" "r10"]

/-- Counterexample to C4 as stated: on this 10-post catalog of text posts,
the diversifier's text bucket cap of 10 / 2 = 5 truncates the feed for the
unknown user to at most 5 posts, so computeFeed cannot return the 10
highest-raw-score posts. -/
theorem c4_newuser_counterexample :
    get_recommendations (K := ℚ) none c4Catalog [] [] [] 0 [] [] 10 ≠
      (sortByScoreDesc c4Catalog).take 10 ∧
    c4Catalog.length = 10 := by
  refine ⟨?_, rfl⟩
  have hcand : get_candidates (K := ℚ) none c4Catalog [] [] [] 0 100 =
      (sortByScoreDesc c4Catalog).take 100 := rfl
  have hlen100 : ((sortByScoreDesc c4Catalog).take 100).length = 10 := by
    rw [List.length_take]
    unfold sortByScoreDesc
    rw [List.length_insertionSort]
    rfl
  have hempty : ((sortByScoreDesc c4Catalog).take 100).isEmpty = false := by
    cases hE : ((sortByScoreDesc c4Catalog).take 100).isEmpty
    · rfl
    · exfalso
      have hnil := List.isEmpty_iff.mp hE
      rw [hnil] at hlen100
      simp at hlen100
  have hrec : get_recommendations (K := ℚ) none c4Catalog [] [] [] 0 [] [] 10 =
      apply_business_rules none
        (score_candidates none ((sortByScoreDesc c4Catalog).take 100)) 10 []
        [] := by
    simp only [get_recommendations]
    rw [hcand, hempty]
    rfl
  have htext : ∀ p ∈ (score_candidates (K := ℚ) none
      ((sortByScoreDesc c4Catalog).take 100)).map (fun pr => pr.1),
      contentType p = CType.text := by
    intro p hp
    have h1 := mem_score_candidates_map_fst _ _ p hp
    have h2 := List.mem_of_mem_take h1
    have h3 : p ∈ c4Catalog := by
      unfold sortByScoreDesc at h2
      exact List.mem_insertionSort _ |>.mp h2
    have hcat : ∀ q ∈ c4Catalog, contentType q = CType.text := by decide
    exact hcat p h3
  have hle : (get_recommendations (K := ℚ) none c4Catalog [] [] [] 0 [] []
      10).length ≤ 5 := by
    rw [hrec, apply_business_rules_length]
    exact greedySelect_length_le_half _ 10 CType.text htext
  intro hcontra
  rw [hcontra] at hle
  have h10 : ((sortByScoreDesc c4Catalog).take 10).length = 10 := by
    rw [List.length_take]
    unfold sortByScoreDesc
    rw [List.length_insertionSort]
    rfl
  rw [h10] at hle
  exact absurd hle (by norm_num)

end RankingClaims
